import Mathlib

/-!
Verification of the pystiche example sources.

The central piece of code is the beginner notebook
`example_nst_without_pystiche.ipynb`, which implements a multi-layer encoder,
multi-layer losses (content / style via Gram matrices) and the optimization
closure by hand.  The pyramid example only *calls* `pystiche.pyramid.ImagePyramid`
and `optim.pyramid_image_optimization`; that library code is not part of the
sources and is modelled from the specification where needed.

Tensors are modelled as nested lists of rationals; network modules are opaque
functions on the tensor type.  Python exceptions become `Except` error values.
-/

namespace Pystiche

instance exceptDecEq {e g : Type} [DecidableEq e] [DecidableEq g] :
    DecidableEq (Except e g) := fun a b =>
  match a, b with
  | .ok x, .ok y =>
    if h : x = y then .isTrue (by rw [h])
    else .isFalse (fun hc => h (Except.ok.inj hc))
  | .error x, .error y =>
    if h : x = y then .isTrue (by rw [h])
    else .isFalse (fun hc => h (Except.error.inj hc))
  | .ok _, .error _ => .isFalse (fun hc => Except.noConfusion hc)
  | .error _, .ok _ => .isFalse (fun hc => Except.noConfusion hc)

/-! ## Multi-layer encoder

Embedding of `class MultiLayerEncoder(nn.Sequential)` from the beginner
notebook.  An encoder is the ordered list of named child modules of the
`nn.Sequential`; module names are unique (the class is built from an
`OrderedDict`).  `α` is the tensor type; modules are opaque functions `α → α`.
-/

/-- Errors raised by the encoder methods: `valueError layer` is the
`ValueError(f"Layer {layer} is not part of the multi-layer encoder.")` raised by
`_find_deepest_layer`; `indexError` is the `IndexError` that
`sorted(req_layers, ...)[-1]` raises when no layer at all was requested;
`keyError` is a `storage[layer]` lookup failure in `forward` (unreachable after
a successful `_find_deepest_layer`). -/
inductive MLEError where
  | valueError (layer : String)
  | indexError
  | keyError
deriving DecidableEq

structure MultiLayerEncoder (α : Type) where
  layers : List (String × (α → α))

variable {α : Type}

/-- `children_names(self)`: the names of the child modules, in order. -/
def MultiLayerEncoder.children_names (e : MultiLayerEncoder α) : List String :=
  e.layers.map Prod.fst

/-- `set(itertools.chain(*layer_cfgs))`, keeping the first occurrence of each
requested layer name.  (CPython set iteration order is unspecified; only the
*membership* matters for which error is raised and which layer is deepest, so
fixing first-occurrence order is faithful.) -/
def dedupFirst : List String → List String
  | [] => []
  | x :: xs => x :: (dedupFirst xs).filter (fun y => y != x)

/-- `children_names.index(l)`: index of the first occurrence of `l` (equals the
list length when `l` is absent, a case the callers guard against). -/
def idxIn (l : String) : List String → Nat
  | [] => 0
  | x :: xs => if x = l then 0 else idxIn l xs + 1

/-- `sorted(req_layers, key=children_names.index)[-1]`: the requested layer
whose first-occurrence index in `names` is maximal (`none` for an empty
request, where Python raises `IndexError`).  Python's sort is stable, so among
equal keys the later list element wins, matching the `else` branch here. -/
def deepestOf (names : List String) : List String → Option String
  | [] => none
  | l :: rest =>
    match deepestOf names rest with
    | none => some l
    | some m => if idxIn m names < idxIn l names then some l else some m

/-- `MultiLayerEncoder._find_deepest_layer(*layer_cfgs)`. -/
def MultiLayerEncoder.find_deepest_layer (e : MultiLayerEncoder α)
    (layer_cfgs : List (List String)) : Except MLEError String :=
  let req_layers := dedupFirst layer_cfgs.join
  let names := e.children_names
  match req_layers.find? (fun l => !names.contains l) with
  | some l => .error (.valueError l)
  | none =>
    match deepestOf names req_layers with
    | none => .error .indexError
    | some d => .ok d

/-- The loop body of `MultiLayerEncoder.forward`: thread the image through the
child modules in order, recording every intermediate activation in `storage`,
and `break` right after the deepest requested layer. -/
def runForward (layers : List (String × (α → α))) (image : α) (deepest : String) :
    List (String × α) :=
  match layers with
  | [] => []
  | (name, f) :: rest =>
    if name = deepest then [(name, f image)]
    else (name, f image) :: runForward rest (f image) deepest

/-- `[storage[layer] for layer in layers]`; `none` models a `KeyError`. -/
def getStored (storage : List (String × α)) : List String → Option (List α)
  | [] => some []
  | l :: ls =>
    match storage.lookup l, getStored storage ls with
    | some v, some vs => some (v :: vs)
    | _, _ => none

/-- `[[storage[layer] for layer in layers] for layers in layer_cfgs]`. -/
def collectCfgs (storage : List (String × α)) : List (List String) → Option (List (List α))
  | [] => some []
  | ls :: rest =>
    match getStored storage ls, collectCfgs storage rest with
    | some vs, some vss => some (vs :: vss)
    | _, _ => none

/-- `MultiLayerEncoder.forward(image, *layer_cfgs)`. -/
def MultiLayerEncoder.forward (e : MultiLayerEncoder α) (image : α)
    (layer_cfgs : List (List String)) : Except MLEError (List (List α)) :=
  match e.find_deepest_layer layer_cfgs with
  | .error err => .error err
  | .ok deepest =>
    match collectCfgs (runForward e.layers image deepest) layer_cfgs with
    | some r => .ok r
    | none => .error .keyError

/-- `MultiLayerEncoder.trim(*layer_cfgs)`:
`del self[children_names.index(deepest_layer) + 1 :]`, i.e. keep the child
modules up to and including the deepest requested layer. -/
def MultiLayerEncoder.trim (e : MultiLayerEncoder α)
    (layer_cfgs : List (List String)) : Except MLEError (MultiLayerEncoder α) :=
  match e.find_deepest_layer layer_cfgs with
  | .error err => .error err
  | .ok deepest => .ok ⟨e.layers.take (idxIn deepest e.children_names + 1)⟩

/-- Reference semantics of one full forward pass: the activation of layer `l`
is the composition of all child modules up to and including the first module
named `l`, applied to `image`.  (Junk value `image` if `l` is absent.) -/
def refAct (layers : List (String × (α → α))) (image : α) (l : String) : α :=
  match layers with
  | [] => image
  | (name, f) :: rest => if name = l then f image else refAct rest (f image) l

/-! ### Helper lemmas about the encoder -/

theorem mem_dedupFirst {l : String} : ∀ {xs : List String}, l ∈ dedupFirst xs ↔ l ∈ xs := by
  intro xs
  induction xs with
  | nil => simp [dedupFirst]
  | cons x xs ih =>
    by_cases h : l = x
    · simp [dedupFirst, h]
    · simp [dedupFirst, List.mem_filter, ih, bne_iff_ne, h]

theorem dedupFirst_ne_nil {xs : List String} (h : xs ≠ []) : dedupFirst xs ≠ [] := by
  cases xs with
  | nil => exact absurd rfl h
  | cons x xs => simp [dedupFirst]

theorem deepestOf_mem : ∀ (names req : List String) (d : String),
    deepestOf names req = some d → d ∈ req := by
  intro names req
  induction req with
  | nil => intro d h; simp [deepestOf] at h
  | cons l rest ih =>
    intro d h
    simp only [deepestOf] at h
    cases hrec : deepestOf names rest with
    | none =>
      rw [hrec] at h
      simp at h
      simp [h]
    | some m =>
      rw [hrec] at h
      by_cases hlt : idxIn m names < idxIn l names
      · simp [hlt] at h
        simp [h]
      · simp [hlt] at h
        exact List.mem_cons_of_mem _ (ih d (by rw [hrec, h]))

theorem deepestOf_isSome (names : List String) :
    ∀ (req : List String), req ≠ [] → ∃ d, deepestOf names req = some d := by
  intro req h
  cases req with
  | nil => exact absurd rfl h
  | cons l rest =>
    simp only [deepestOf]
    cases hrec : deepestOf names rest with
    | none => exact ⟨l, rfl⟩
    | some m =>
      by_cases hlt : idxIn m names < idxIn l names
      · exact ⟨l, by simp [hlt]⟩
      · exact ⟨m, by simp [hlt]⟩

theorem deepestOf_ge : ∀ (names req : List String) (d : String),
    deepestOf names req = some d → ∀ l ∈ req, idxIn l names ≤ idxIn d names := by
  intro names req
  induction req with
  | nil => intro d _ l hl; simp at hl
  | cons x rest ih =>
    intro d h l hl
    simp only [deepestOf] at h
    cases hrec : deepestOf names rest with
    | none =>
      rw [hrec] at h
      simp at h
      cases rest with
      | nil =>
        rcases List.mem_singleton.mp hl with rfl
        exact h ▸ le_refl _
      | cons y ys => simp [deepestOf] at hrec; cases hrec' : deepestOf names ys <;> simp [hrec'] at hrec <;> split at hrec <;> simp_all
    | some m =>
      rw [hrec] at h
      rcases List.mem_cons.mp hl with rfl | hl'
      · by_cases hlt : idxIn m names < idxIn l names
        · simp [hlt] at h
          exact h ▸ le_refl _
        · simp [hlt] at h
          exact le_trans (le_of_not_lt hlt) (h ▸ le_refl _)
      · have hle := ih m hrec l hl'
        by_cases hlt : idxIn m names < idxIn x names
        · simp [hlt] at h
          exact le_trans hle (le_of_lt (h ▸ hlt))
        · simp [hlt] at h
          exact h ▸ hle

theorem lookup_runForward :
    ∀ (layers : List (String × (α → α))) (image : α) (d l : String),
      l ∈ layers.map Prod.fst →
      idxIn l (layers.map Prod.fst) ≤ idxIn d (layers.map Prod.fst) →
      (runForward layers image d).lookup l = some (refAct layers image l) := by
  intro layers
  induction layers with
  | nil => intro image d l hl; simp at hl
  | cons p rest ih =>
    intro image d l hl hle
    obtain ⟨name, f⟩ := p
    by_cases hd : name = d
    · -- the loop breaks right after this module
      have hidx : idxIn d (name :: rest.map Prod.fst) = 0 := by
        simp [idxIn, hd]
      simp only [List.map_cons] at hle
      rw [hidx] at hle
      have hl0 : idxIn l (name :: rest.map Prod.fst) = 0 := Nat.le_zero.mp hle
      have hnl : name = l := by
        by_contra hne
        simp [idxIn, hne] at hl0
      subst hnl
      subst hd
      simp [runForward, refAct, List.lookup]
    · by_cases hnl : name = l
      · subst hnl
        simp [runForward, hd, refAct, List.lookup]
      · have hl' : l ∈ rest.map Prod.fst := by
          simp only [List.map_cons, List.mem_cons] at hl
          rcases hl with h | h
          · exact absurd h.symm hnl
          · exact h
        have hle' : idxIn l (rest.map Prod.fst) ≤ idxIn d (rest.map Prod.fst) := by
          simp only [List.map_cons, idxIn, hd, hnl, if_false] at hle
          omega
        have hbeq : (l == name) = false := by
          simp [beq_eq_false_iff_ne]
          exact fun h => hnl h.symm
        simp only [runForward, hd, if_false, refAct, hnl]
        rw [List.lookup, hbeq]
        exact ih (f image) d l hl' hle'

theorem getStored_eq (storage : List (String × α)) (g : String → α) :
    ∀ (ls : List String), (∀ l ∈ ls, storage.lookup l = some (g l)) →
      getStored storage ls = some (ls.map g) := by
  intro ls
  induction ls with
  | nil => intro _; simp [getStored]
  | cons l ls ih =>
    intro h
    have h1 : storage.lookup l = some (g l) := h l (List.mem_cons_self _ _)
    have h2 : getStored storage ls = some (ls.map g) :=
      ih fun x hx => h x (List.mem_cons_of_mem _ hx)
    simp [getStored, h1, h2]

theorem collectCfgs_eq (storage : List (String × α)) (g : String → α) :
    ∀ (cfgs : List (List String)),
      (∀ l ∈ cfgs.join, storage.lookup l = some (g l)) →
      collectCfgs storage cfgs = some (cfgs.map (fun ls => ls.map g)) := by
  intro cfgs
  induction cfgs with
  | nil => intro _; simp [collectCfgs]
  | cons ls rest ih =>
    intro h
    have h1 : getStored storage ls = some (ls.map g) :=
      getStored_eq storage g ls fun l hl => h l (by simp [hl])
    have h2 : collectCfgs storage rest = some (rest.map (fun ls => ls.map g)) :=
      ih fun l hl => h l (by
        obtain ⟨xs, hxs, hlxs⟩ := List.mem_join.mp hl
        exact List.mem_join.mpr ⟨xs, List.mem_cons_of_mem _ hxs, hlxs⟩)
    simp [collectCfgs, h1, h2]

theorem find_deepest_layer_ok (e : MultiLayerEncoder α) (cfgs : List (List String))
    (hall : ∀ l ∈ cfgs.join, l ∈ e.children_names) (hne : cfgs.join ≠ []) :
    ∃ d, e.find_deepest_layer cfgs = .ok d ∧ d ∈ cfgs.join ∧
      ∀ l ∈ cfgs.join, idxIn l e.children_names ≤ idxIn d e.children_names := by
  have hfind : (dedupFirst cfgs.join).find? (fun l => !e.children_names.contains l) = none := by
    rw [List.find?_eq_none]
    intro x hx
    have hx' : x ∈ cfgs.join := mem_dedupFirst.mp hx
    simp [hall x hx']
  obtain ⟨d, hd⟩ := deepestOf_isSome e.children_names (dedupFirst cfgs.join)
    (dedupFirst_ne_nil hne)
  refine ⟨d, ?_, ?_, ?_⟩
  · simp only [MultiLayerEncoder.find_deepest_layer, hfind, hd]
  · exact mem_dedupFirst.mp (deepestOf_mem _ _ _ hd)
  · intro l hl
    exact deepestOf_ge _ _ _ hd l (mem_dedupFirst.mpr hl)

/-- Core correctness of `MultiLayerEncoder.forward`: when all requested layer
names exist (and at least one layer is requested), the call succeeds and
returns, for each requested collection, the activations of its layers in the
collection's order, each equal to the reference single-pass activation. -/
theorem forward_eq_refAct (e : MultiLayerEncoder α) (image : α)
    (cfgs : List (List String))
    (hall : ∀ l ∈ cfgs.join, l ∈ e.children_names) (hne : cfgs.join ≠ []) :
    e.forward image cfgs =
      .ok (cfgs.map (fun ls => ls.map (fun l => refAct e.layers image l))) := by
  obtain ⟨d, hd, _, hge⟩ := find_deepest_layer_ok e cfgs hall hne
  have hcollect : collectCfgs (runForward e.layers image d) cfgs =
      some (cfgs.map (fun ls => ls.map (fun l => refAct e.layers image l))) := by
    apply collectCfgs_eq
    intro l hl
    exact lookup_runForward e.layers image d l (hall l hl) (hge l hl)
  simp only [MultiLayerEncoder.forward, hd, hcollect]

theorem mapmap_entry (g : String → α) (cfgs : List (List String)) (i j : Nat) :
    ((cfgs.map (fun ls => ls.map g))[i]?.bind fun acts => acts[j]?) =
      (cfgs[i]?.bind fun ls => ls[j]?).map g := by
  rw [List.getElem?_map]
  cases cfgs[i]? with
  | none => rfl
  | some ls => simp [List.getElem?_map]

/-- C1: `MultiLayerEncoder.forward` returns, for each requested layer-name
collection, the activations of its layers in the collection's order, each equal
to the single-forward-pass reference activation of the image at that layer (the
pass stops at the deepest requested layer, which covers every requested layer).
Consequently — second conjunct — any two successful requests on the same image,
in particular a collection and a subset of it, return identical activations at
positions naming the same layer. -/
theorem mle_forward_single_pass (e : MultiLayerEncoder α) (image : α)
    (cfgs : List (List String))
    (_hnodup : e.children_names.Nodup)
    (hall : ∀ l ∈ cfgs.join, l ∈ e.children_names) (hne : cfgs.join ≠ []) :
    e.forward image cfgs =
      .ok (cfgs.map (fun ls => ls.map (fun l => refAct e.layers image l)))
    ∧ ∀ (cfgs2 : List (List String)),
        (∀ l ∈ cfgs2.join, l ∈ e.children_names) → cfgs2.join ≠ [] →
        ∀ (r1 r2 : List (List α)),
          e.forward image cfgs = .ok r1 → e.forward image cfgs2 = .ok r2 →
          ∀ (i j i2 j2 : Nat) (l : String),
            (cfgs[i]?.bind fun ls => ls[j]?) = some l →
            (cfgs2[i2]?.bind fun ls => ls[j2]?) = some l →
            (r1[i]?.bind fun acts => acts[j]?) = (r2[i2]?.bind fun acts => acts[j2]?) := by
  have hmain := forward_eq_refAct e image cfgs hall hne
  refine ⟨hmain, ?_⟩
  intro cfgs2 hall2 hne2 r1 r2 h1 h2 i j i2 j2 l hc1 hc2
  have hmain2 := forward_eq_refAct e image cfgs2 hall2 hne2
  have hr1 : r1 = cfgs.map (fun ls => ls.map (fun l => refAct e.layers image l)) := by
    rw [h1] at hmain
    exact Except.ok.inj hmain
  have hr2 : r2 = cfgs2.map (fun ls => ls.map (fun l => refAct e.layers image l)) := by
    rw [h2] at hmain2
    exact Except.ok.inj hmain2
  subst hr1
  subst hr2
  rw [mapmap_entry, mapmap_entry, hc1, hc2]

theorem find_deepest_layer_missing (e : MultiLayerEncoder α)
    (cfgs : List (List String)) (hmiss : ∃ l ∈ cfgs.join, l ∉ e.children_names) :
    ∃ l, l ∈ cfgs.join ∧ l ∉ e.children_names ∧
      e.find_deepest_layer cfgs = .error (.valueError l) := by
  obtain ⟨l, hl, hnotin⟩ := hmiss
  have hsome : ((dedupFirst cfgs.join).find?
      (fun l => !e.children_names.contains l)).isSome := by
    rw [List.find?_isSome]
    exact ⟨l, mem_dedupFirst.mpr hl, by simp [hnotin]⟩
  obtain ⟨l0, hl0⟩ := Option.isSome_iff_exists.mp hsome
  have hl0mem : l0 ∈ dedupFirst cfgs.join := List.mem_of_find?_eq_some hl0
  have hl0p := List.find?_some hl0
  refine ⟨l0, mem_dedupFirst.mp hl0mem, by simpa using hl0p, ?_⟩
  simp only [MultiLayerEncoder.find_deepest_layer, hl0]

theorem find_deepest_layer_not_valueError (e : MultiLayerEncoder α)
    (cfgs : List (List String)) (hall : ∀ l ∈ cfgs.join, l ∈ e.children_names) :
    ∀ l', e.find_deepest_layer cfgs ≠ .error (.valueError l') := by
  intro l'
  have hfind : (dedupFirst cfgs.join).find?
      (fun l => !e.children_names.contains l) = none := by
    rw [List.find?_eq_none]
    intro x hx
    simp [hall x (mem_dedupFirst.mp hx)]
  simp only [MultiLayerEncoder.find_deepest_layer, hfind]
  cases deepestOf e.children_names (dedupFirst cfgs.join) with
  | none => simp
  | some d => simp

/-- C3: a `forward` or `trim` request whose layer-name collections contain a
name that is not among the encoder's layer names fails with the `ValueError`
naming a missing layer; a request whose names all exist never raises that
error (it may still raise the distinct `IndexError` when nothing at all is
requested, which is not the configuration error in question). -/
theorem mle_unknown_layer_error (e : MultiLayerEncoder α) (image : α)
    (cfgs : List (List String)) :
    ((∃ l ∈ cfgs.join, l ∉ e.children_names) →
      ∃ l, l ∈ cfgs.join ∧ l ∉ e.children_names ∧
        e.forward image cfgs = .error (.valueError l) ∧
        e.trim cfgs = .error (.valueError l))
    ∧ ((∀ l ∈ cfgs.join, l ∈ e.children_names) →
      (∀ l, e.forward image cfgs ≠ .error (.valueError l)) ∧
      (∀ l, e.trim cfgs ≠ .error (.valueError l))) := by
  constructor
  · intro hmiss
    obtain ⟨l, hl, hnotin, herr⟩ := find_deepest_layer_missing e cfgs hmiss
    refine ⟨l, hl, hnotin, ?_, ?_⟩
    · simp only [MultiLayerEncoder.forward, herr]
    · simp only [MultiLayerEncoder.trim, herr]
  · intro hall
    have hnv := find_deepest_layer_not_valueError e cfgs hall
    constructor
    · intro l
      simp only [MultiLayerEncoder.forward]
      cases hfd : e.find_deepest_layer cfgs with
      | error err =>
        intro hcontra
        exact hnv l (by rw [hfd, Except.error.inj hcontra])
      | ok d =>
        cases hc : collectCfgs (runForward e.layers image d) cfgs with
        | none => simp [hc]
        | some r => simp [hc]
    · intro l
      simp only [MultiLayerEncoder.trim]
      cases hfd : e.find_deepest_layer cfgs with
      | error err =>
        intro hcontra
        exact hnv l (by rw [hfd, Except.error.inj hcontra])
      | ok d => simp

/-! ### Concrete encoder instances for witnesses and counterexamples -/

/-- A tiny concrete encoder over `Nat` "images" with two named modules. -/
def natEnc : MultiLayerEncoder Nat :=
  ⟨[("conv1", fun n => n + 1), ("relu1", fun n => n * 2)]⟩

/-- Witness for C1 at a concrete encoder and request. -/
theorem mle_forward_single_pass_witness :
    natEnc.forward 1 [["conv1", "relu1"], ["conv1"]] = .ok [[2, 4], [2]] := by
  have h := mle_forward_single_pass natEnc 1 [["conv1", "relu1"], ["conv1"]]
    (by decide) (by decide) (by decide)
  exact h.1.trans rfl

/-- Witness for C3: a request naming the missing layer `"pool9"` fails with the
`ValueError`, and a request of existing names never does. -/
theorem mle_unknown_layer_error_witness :
    natEnc.forward 1 [["conv1", "pool9"]] = .error (.valueError ("pool9"))
    ∧ natEnc.trim [["conv1", "pool9"]] = .error (.valueError ("pool9"))
    ∧ natEnc.forward 1 [["conv1"], ["relu1"]] ≠ .error (.valueError ("conv1")) := by
  have h1 := (mle_unknown_layer_error natEnc 1 [["conv1", "pool9"]]).1
    (by decide)
  have h2 := ((mle_unknown_layer_error natEnc 1 [["conv1"], ["relu1"]]).2
    (by decide)).1 ("conv1")
  obtain ⟨l, hlmem, hlnot, hfwd, htrim⟩ := h1
  have hl : l = "pool9" := by
    have hcases : l = "conv1" ∨ l = "pool9" := by simpa using hlmem
    rcases hcases with h | h
    · subst h
      exact absurd (by decide) hlnot
    · exact h
  subst hl
  exact ⟨hfwd, htrim, h2⟩

/-! ### Trim lemmas (C7) -/

theorem mem_take_of_idxIn : ∀ (names : List String) (l : String) (n : Nat),
    l ∈ names → idxIn l names < n → l ∈ names.take n := by
  intro names
  induction names with
  | nil => intro l n hl; simp at hl
  | cons x xs ih =>
    intro l n hl hlt
    cases n with
    | zero => simp [idxIn] at hlt
    | succ n =>
      by_cases hx : x = l
      · simp [hx, List.take]
      · have hl' : l ∈ xs := by
          rcases List.mem_cons.mp hl with h | h
          · exact absurd h.symm hx
          · exact h
        have hlt' : idxIn l xs < n := by
          simp [idxIn, hx] at hlt
          omega
        simp [List.take, List.mem_cons]
        exact Or.inr (ih l n hl' hlt')

theorem idxIn_lt_of_mem_take : ∀ (names : List String) (l : String) (n : Nat),
    l ∈ names.take n → l ∈ names ∧ idxIn l names < n := by
  intro names
  induction names with
  | nil => intro l n hl; simp at hl
  | cons x xs ih =>
    intro l n hl
    cases n with
    | zero => simp at hl
    | succ n =>
      simp only [List.take, List.mem_cons] at hl
      by_cases hx : x = l
      · exact ⟨by simp [hx], by simp [idxIn, hx]⟩
      · rcases hl with h | h
        · exact absurd h.symm hx
        · obtain ⟨hmem, hlt⟩ := ih l n h
          exact ⟨List.mem_cons_of_mem _ hmem, by simp [idxIn, hx]; omega⟩

theorem refAct_take : ∀ (layers : List (String × (α → α))) (image : α)
    (l : String) (n : Nat), l ∈ (layers.map Prod.fst).take n →
    refAct (layers.take n) image l = refAct layers image l := by
  intro layers
  induction layers with
  | nil => intro image l n hl; simp at hl
  | cons p rest ih =>
    intro image l n hl
    obtain ⟨name, f⟩ := p
    cases n with
    | zero => simp at hl
    | succ n =>
      by_cases hx : name = l
      · simp [List.take, refAct, hx]
      · simp only [List.map_cons, List.take, List.mem_cons] at hl
        rcases hl with h | h
        · exact absurd h.symm hx
        · simp only [List.take, refAct, hx, if_false]
          exact ih (f image) l n h

/-- C7: for requests whose layer names all exist (and are nonempty), `trim`
succeeds and keeps exactly the child modules that are not strictly deeper than
the deepest requested layer `d` — membership in the trimmed encoder is
equivalent to having first-occurrence index at most `idxIn d` — every requested
layer survives, and `forward` on the trimmed encoder returns exactly what it
returned before the trim. -/
theorem mle_trim_exact (e : MultiLayerEncoder α) (image : α)
    (cfgs : List (List String))
    (_hnodup : e.children_names.Nodup)
    (hall : ∀ l ∈ cfgs.join, l ∈ e.children_names) (hne : cfgs.join ≠ []) :
    ∃ d e', e.find_deepest_layer cfgs = .ok d ∧ e.trim cfgs = .ok e' ∧
      (∃ rest, e.layers = e'.layers ++ rest) ∧
      (∀ l, l ∈ e'.children_names ↔
        (l ∈ e.children_names ∧ idxIn l e.children_names ≤ idxIn d e.children_names)) ∧
      (∀ l ∈ cfgs.join, l ∈ e'.children_names) ∧
      e'.forward image cfgs = e.forward image cfgs := by
  obtain ⟨d, hd, hdmem, hge⟩ := find_deepest_layer_ok e cfgs hall hne
  set k := idxIn d e.children_names with hk
  refine ⟨d, ⟨e.layers.take (k + 1)⟩, hd, ?_, ?_, ?_, ?_, ?_⟩
  · simp only [MultiLayerEncoder.trim, hd]
  · exact ⟨e.layers.drop (k + 1), (List.take_append_drop (k + 1) e.layers).symm⟩
  · intro l
    have hnames : MultiLayerEncoder.children_names ⟨e.layers.take (k + 1)⟩ =
        e.children_names.take (k + 1) := by
      simp [MultiLayerEncoder.children_names, List.map_take]
    rw [hnames]
    constructor
    · intro hmem
      obtain ⟨h1, h2⟩ := idxIn_lt_of_mem_take e.children_names l (k + 1) hmem
      exact ⟨h1, by omega⟩
    · intro ⟨h1, h2⟩
      exact mem_take_of_idxIn e.children_names l (k + 1) h1 (by omega)
  · intro l hl
    have hnames : MultiLayerEncoder.children_names ⟨e.layers.take (k + 1)⟩ =
        e.children_names.take (k + 1) := by
      simp [MultiLayerEncoder.children_names, List.map_take]
    rw [hnames]
    exact mem_take_of_idxIn e.children_names l (k + 1) (hall l hl)
      (Nat.lt_succ_of_le (hge l hl))
  · have hnames : MultiLayerEncoder.children_names
        (⟨e.layers.take (k + 1)⟩ : MultiLayerEncoder α) =
        e.children_names.take (k + 1) := by
      simp [MultiLayerEncoder.children_names, List.map_take]
    have hall' : ∀ l ∈ cfgs.join, l ∈ MultiLayerEncoder.children_names
        (⟨e.layers.take (k + 1)⟩ : MultiLayerEncoder α) := by
      intro l hl
      rw [hnames]
      exact mem_take_of_idxIn e.children_names l (k + 1) (hall l hl)
        (Nat.lt_succ_of_le (hge l hl))
    have h1 := forward_eq_refAct (⟨e.layers.take (k + 1)⟩ : MultiLayerEncoder α)
      image cfgs hall' hne
    have h2 := forward_eq_refAct e image cfgs hall hne
    rw [h1, h2]
    congr 1
    apply List.map_congr_left
    intro ls hls
    apply List.map_congr_left
    intro l hl
    have hlj : l ∈ cfgs.join := List.mem_join.mpr ⟨ls, hls, hl⟩
    apply refAct_take
    rw [← List.map_take]
    have : l ∈ e.children_names.take (k + 1) :=
      mem_take_of_idxIn e.children_names l (k + 1) (hall l hlj)
        (Nat.lt_succ_of_le (hge l hlj))
    simpa [MultiLayerEncoder.children_names, List.map_take] using this

/-- Witness for C7 at a concrete encoder: trimming to the request `["conv1"]`
drops `"relu1"` and leaves `forward` on the request unchanged. -/
theorem mle_trim_exact_witness :
    natEnc.trim [["conv1"]] = .ok ⟨[("conv1", fun n => n + 1)]⟩ ∧
    (natEnc.trim [["conv1"]]).map (fun e' => e'.forward 1 [["conv1"]]) =
      .ok (natEnc.forward 1 [["conv1"]]) := by
  obtain ⟨d, e', hd, htrim, -, -, -, hfwd⟩ :=
    mle_trim_exact natEnc 1 [["conv1"]] (by decide) (by decide) (by decide)
  have hd' : d = "conv1" := by
    have : natEnc.find_deepest_layer [["conv1"]] = .ok ("conv1") := rfl
    rw [this] at hd
    exact (Except.ok.inj hd).symm
  subst hd'
  have he' : e' = ⟨[("conv1", fun n => n + 1)]⟩ := by
    have : natEnc.trim [["conv1"]] =
        .ok (⟨[("conv1", fun n => n + 1)]⟩ : MultiLayerEncoder Nat) := rfl
    rw [this] at htrim
    exact (Except.ok.inj htrim).symm
  subst he'
  exact ⟨htrim, by rw [htrim, Except.map, hfwd]⟩

/-! ## Multi-layer losses

Embedding of `class MultiLayerLoss(nn.Module)` from the beginner notebook.
The per-index registered buffers `_target_encs_{idx}` together with
`_numel_target_encs` are observed only through the `target_encs` property
(`set_target_encs` rewrites buffers `0 .. len-1` and resets the count), so the
observable state is the list of stored target encodings plus the score weight.
`calculate_score` is the subclass hook (`raise NotImplementedError` in the
base class; `ContentLoss` and `StyleLoss` override it). -/

/-- `mismatch given stored` is the `RuntimeError` raised by
`MultiLayerLoss.forward` when the encoding counts differ; `zeroDivision` is the
`ZeroDivisionError` of `mean([]) = sum([]) / 0` when both counts are zero. -/
inductive LossError where
  | mismatch (given stored : Nat)
  | zeroDivision
deriving DecidableEq

structure MultiLayerLoss (α : Type) where
  score_weight : ℚ
  target_encs : List α
  calculate_score : α → α → ℚ

/-- `MultiLayerLoss.set_target_encs(target_encs)` (`.detach()` has no
observable effect on values). -/
def MultiLayerLoss.set_target_encs (s : MultiLayerLoss α) (ts : List α) :
    MultiLayerLoss α :=
  { s with target_encs := ts }

/-- `def mean(sized): return sum(sized) / len(sized)` — a `ZeroDivisionError`
on the empty list. -/
def mean (sized : List ℚ) : Except LossError ℚ :=
  if sized.length = 0 then .error .zeroDivision
  else .ok (sized.sum / sized.length)

/-- `MultiLayerLoss.forward(input_encs)`.  The second component is the state of
the module after the call; `forward` performs no writes, so it is always the
input state. -/
def MultiLayerLoss.forward (s : MultiLayerLoss α) (input_encs : List α) :
    Except LossError ℚ × MultiLayerLoss α :=
  if input_encs.length ≠ s.target_encs.length then
    (.error (.mismatch input_encs.length s.target_encs.length), s)
  else
    match mean ((input_encs.zip s.target_encs).map
        (fun p => s.calculate_score p.1 p.2)) with
    | .error err => (.error err, s)
    | .ok m => (.ok (m * s.score_weight), s)

theorem mll_forward_ok (s : MultiLayerLoss α) (input_encs : List α)
    (hlen : input_encs.length = s.target_encs.length) (hne : input_encs ≠ []) :
    (s.forward input_encs).1 =
      .ok ((((input_encs.zip s.target_encs).map
          (fun p => s.calculate_score p.1 p.2)).sum /
        (((input_encs.zip s.target_encs).map
          (fun p => s.calculate_score p.1 p.2)).length : ℚ)) * s.score_weight) := by
  have hzlen : (input_encs.zip s.target_encs).length = input_encs.length := by
    rw [List.length_zip, hlen, min_self]
  have hlne : ((input_encs.zip s.target_encs).map
      (fun p => s.calculate_score p.1 p.2)).length ≠ 0 := by
    rw [List.length_map, hzlen]
    exact fun h => hne (List.length_eq_zero.mp h)
  simp only [MultiLayerLoss.forward]
  rw [if_neg (not_not_intro hlen)]
  simp only [mean]
  rw [if_neg hlne]

/-- C4: a `MultiLayerLoss` in the uninitialized state (no target encodings
stored) rejects every non-empty list of input encodings with the count-mismatch
`RuntimeError` instead of returning a value; once the matching targets have
been stored via `set_target_encs`, the same call succeeds. -/
theorem mll_requires_targets (s0 : MultiLayerLoss α) (input_encs ts : List α)
    (h0 : s0.target_encs = []) (hne : input_encs ≠ [])
    (hlen : ts.length = input_encs.length) :
    (s0.forward input_encs).1 = .error (.mismatch input_encs.length 0)
    ∧ ∃ q, ((s0.set_target_encs ts).forward input_encs).1 = .ok q := by
  constructor
  · have hlen0 : input_encs.length ≠ 0 :=
      fun h => hne (List.length_eq_zero.mp h)
    simp [MultiLayerLoss.forward, h0, hlen0]
  · refine ⟨_, mll_forward_ok (s0.set_target_encs ts) input_encs ?_ hne⟩
    simp [MultiLayerLoss.set_target_encs, hlen]

/-- Witness for C4 over `ℚ`-valued "encodings" with a difference score. -/
theorem mll_requires_targets_witness :
    ((⟨2, [], fun a b => a - b⟩ : MultiLayerLoss ℚ).forward [5]).1 =
      .error (.mismatch 1 0)
    ∧ ∃ q, (((⟨2, [], fun a b => a - b⟩ : MultiLayerLoss ℚ).set_target_encs
        [3]).forward [5]).1 = .ok q := by
  exact mll_requires_targets (⟨2, [], fun a b => a - b⟩ : MultiLayerLoss ℚ)
    [5] [3] rfl (by decide) rfl

/-- C9: `MultiLayerLoss.forward` raises its count-mismatch `RuntimeError`
exactly when the number of given input encodings differs from the number of
stored target encodings (the only other error is the distinct
`ZeroDivisionError` of `mean([])`), the error reports both counts, and in the
error case the module state — stored targets, target count and score weight —
is returned unchanged. -/
theorem mean_ne_mismatch (sized : List ℚ) (g t : Nat) :
    mean sized ≠ .error (.mismatch g t) := by
  simp only [mean]
  split
  · simp
  · simp

theorem mll_mismatch_iff (s : MultiLayerLoss α) (input_encs : List α) :
    ((∃ g t, (s.forward input_encs).1 = .error (.mismatch g t)) ↔
      input_encs.length ≠ s.target_encs.length)
    ∧ (input_encs.length ≠ s.target_encs.length →
        (s.forward input_encs).1 =
          .error (.mismatch input_encs.length s.target_encs.length)
        ∧ (s.forward input_encs).2 = s) := by
  constructor
  · constructor
    · rintro ⟨g, t, h⟩ heq
      simp only [MultiLayerLoss.forward, heq, ne_eq, not_true_eq_false,
        if_false] at h
      cases hm : mean ((input_encs.zip s.target_encs).map
          (fun p => s.calculate_score p.1 p.2)) with
      | error err =>
        rw [hm] at h
        have herr : err = LossError.mismatch g t := by simpa using h
        rw [herr] at hm
        exact mean_ne_mismatch _ g t hm
      | ok m =>
        rw [hm] at h
        simp at h
    · intro hne
      exact ⟨input_encs.length, s.target_encs.length,
        by simp [MultiLayerLoss.forward, hne]⟩
  · intro hne
    constructor
    · simp [MultiLayerLoss.forward, hne]
    · simp [MultiLayerLoss.forward, hne]

/-- Witness for C9: with one stored target and two inputs the call reports
`2 != 1` and leaves the module unchanged. -/
theorem mll_mismatch_iff_witness :
    (((⟨3, [7], fun a b => a * b⟩ : MultiLayerLoss ℚ).forward [1, 2]).1 =
      .error (.mismatch 2 1))
    ∧ (((⟨3, [7], fun a b => a * b⟩ : MultiLayerLoss ℚ).forward [1, 2]).2 =
      (⟨3, [7], fun a b => a * b⟩ : MultiLayerLoss ℚ)) := by
  exact (mll_mismatch_iff (⟨3, [7], fun a b => a * b⟩ : MultiLayerLoss ℚ)
    [1, 2]).2 (by decide)

/-! ## Composite operators (C6)

The pystiche composite operators with per-child weights
(`ops.MultiLayerEncodingOperator`, `ops.MultiRegionOperator`) are not part of
the sources; only their callers appear in the advanced/pyramid notebooks. -/

/-- Modelled from the spec: "A composite operator holds named children and
per-child weights; its score is the weighted mean (or weighted sum, per
configuration) of children's scores."  `children` maps a child key to its
weight and score; `aggregateSum = false` is the default mean aggregation. -/
structure CompositeOp where
  children : List (String × ℚ × ℚ)
  aggregateSum : Bool
  score_weight : ℚ

/-- Modelled from the spec: the composite score — the weighted sum
`Σ wᵢ·sᵢ` of the children's scores, divided by `Σ wᵢ` for mean aggregation —
scaled by the composite's own score weight. -/
def CompositeOp.score (c : CompositeOp) : ℚ :=
  let ws := (c.children.map (fun child => child.2.1 * child.2.2)).sum
  (if c.aggregateSum then ws
   else ws / (c.children.map (fun child => child.2.1)).sum) * c.score_weight

theorem map_on_zip_names (g : ℚ × ℚ → ℚ) :
    ∀ (names : List String) (qs : List (ℚ × ℚ)), names.length = qs.length →
      (names.zip qs).map (fun child => g child.2) = qs.map g := by
  intro names
  induction names with
  | nil =>
    intro qs h
    cases qs with
    | nil => simp
    | cons q qs => simp at h
  | cons n names ih =>
    intro qs h
    cases qs with
    | nil => simp at h
    | cons q qs =>
      simp only [List.zip_cons_cons, List.map_cons]
      rw [ih qs (by simpa using h)]

theorem composite_score_unit_weights (scores : List ℚ) (names : List String)
    (w : ℚ) (hlen : names.length = scores.length) :
    CompositeOp.score ⟨names.zip (scores.map (fun q => ((1 : ℚ), q))), false, w⟩ =
      (scores.sum / (scores.length : ℚ)) * w := by
  have hlen2 : names.length = (scores.map (fun q => ((1 : ℚ), q))).length := by
    rw [List.length_map]; exact hlen
  have h1 : (scores.map (fun q => ((1 : ℚ), q))).map
      (fun child => child.1 * child.2) = scores := by
    rw [List.map_map]
    simp [Function.comp_def]
  have h2 : ((scores.map (fun q => ((1 : ℚ), q))).map
      (fun child => child.1)).sum = (scores.length : ℚ) := by
    rw [List.map_map]
    simp [Function.comp_def, List.map_const', List.sum_replicate]
  simp only [CompositeOp.score]
  rw [map_on_zip_names (fun child => child.1 * child.2) names _ hlen2,
    map_on_zip_names (fun child => child.1) names _ hlen2, h1, h2]
  simp

/-- C6: the score computed by `MultiLayerLoss.forward` refines the
spec-modelled composite operator: it equals the weighted mean — with the
default mean aggregation and unit per-child weights — of its per-layer
children's scores, scaled by the composite's score weight; equivalently
(second conjunct) the plain mean of the children's scores times the weight. -/
theorem mll_composite_weighted_mean (s : MultiLayerLoss α)
    (input_encs : List α) (names : List String)
    (hlen : input_encs.length = s.target_encs.length) (hne : input_encs ≠ [])
    (hnames : names.length = (input_encs.zip s.target_encs).length) :
    (s.forward input_encs).1 = .ok (CompositeOp.score
      ⟨names.zip ((input_encs.zip s.target_encs).map
          (fun p => (1, s.calculate_score p.1 p.2))),
        false, s.score_weight⟩)
    ∧ (s.forward input_encs).1 =
      .ok ((((input_encs.zip s.target_encs).map
          (fun p => s.calculate_score p.1 p.2)).sum /
        (((input_encs.zip s.target_encs).map
          (fun p => s.calculate_score p.1 p.2)).length : ℚ)) * s.score_weight) := by
  have hok := mll_forward_ok s input_encs hlen hne
  refine ⟨?_, hok⟩
  rw [hok]
  have hchildren : (input_encs.zip s.target_encs).map
      (fun p => ((1 : ℚ), s.calculate_score p.1 p.2)) =
      ((input_encs.zip s.target_encs).map
        (fun p => s.calculate_score p.1 p.2)).map (fun q => ((1 : ℚ), q)) := by
    rw [List.map_map]
    rfl
  rw [hchildren, composite_score_unit_weights _ names _
    (by rw [List.length_map]; exact hnames)]

/-- Witness for C6 with two children scoring `4` and `8` under weight `3`:
`mean([4, 8]) * 3 = 18`. -/
theorem mll_composite_weighted_mean_witness :
    ((⟨3, [2, 4], fun a b => a * b⟩ : MultiLayerLoss ℚ).forward [2, 2]).1 =
      .ok (CompositeOp.score ⟨[("l1", 1, 4), ("l2", 1, 8)], false, 3⟩)
    ∧ ((⟨3, [2, 4], fun a b => a * b⟩ : MultiLayerLoss ℚ).forward [2, 2]).1 =
      .ok 18 := by
  have h := mll_composite_weighted_mean
    (⟨3, [2, 4], fun a b => a * b⟩ : MultiLayerLoss ℚ) [2, 2] ["l1", "l2"]
    rfl (by decide) rfl
  constructor
  · rw [h.1]
    congr 1
    simp only [CompositeOp.score]
    norm_num
  · rw [h.2]
    norm_num

/-! ## Tensors, mse loss and Gram matrices

A 4-D activation tensor (batch x channel x height x width) is a nested list of
rationals; well-formed tensors have uniform dimensions, and the handful of
places where torch's behaviour on zero-sized tensors differs (division by a
zero element count yields NaN/Inf there) are guarded by positivity hypotheses
in the theorems below. -/

abbrev T1 := List ℚ
abbrev T2 := List T1
abbrev T3 := List T2
abbrev T4 := List T3

/-- `torch.flatten(x, 2)`: collapse the two spatial dimensions. -/
def flatten2 (x : T4) : T3 :=
  x.map (fun b => b.map (fun c => c.join))

def flat3 (x : T3) : T1 :=
  (x.map (fun m => m.join)).join

def flat4 (x : T4) : T1 :=
  flat3 (flatten2 x)

def sqDiffSum (u v : T1) : ℚ :=
  ((u.zip v).map (fun p => (p.1 - p.2) ^ 2)).sum

/-- `torch.nn.functional.mse_loss` with the default mean reduction, for two
equally-shaped tensors presented as their flattened element lists. -/
def mseVec (u v : T1) : ℚ :=
  sqDiffSum u v / ((u.zip v).length : ℚ)

/-- `def feature_reconstruction_loss(input, target): return mse_loss(input, target)`. -/
def feature_reconstruction_loss (input target : T4) : ℚ :=
  mseVec (flat4 input) (flat4 target)

def dot (u v : T1) : ℚ :=
  ((u.zip v).map (fun p => p.1 * p.2)).sum

/-- `torch.bmm(x, x.transpose(1, 2))` for one batch element `m` of the
flattened tensor: the channel-pairwise inner-product matrix. -/
def matmulT (m : T2) : T2 :=
  m.map (fun r => m.map (fun s => dot r s))

/-- `x.size()[-1]` of the flattened tensor: the number of flattened spatial
positions (read off the first batch element and channel; uniform for
well-formed tensors). -/
def lastDim (x : T3) : Nat :=
  match x with
  | [] => 0
  | b :: _ =>
    match b with
    | [] => 0
    | c :: _ => c.length

/-- `G / n`, elementwise over the batch of Gram matrices. -/
def divT3 (G : T3) (n : ℚ) : T3 :=
  G.map (fun M => M.map (fun row => row.map (fun q => q / n)))

/-- `def channelwise_gram_matrix(x, normalize=True)` (the source's default for
`normalize` is `True`; it is passed explicitly here). -/
def channelwise_gram_matrix (x : T4) (normalize : Bool) : T3 :=
  let xf := flatten2 x
  let G := xf.map matmulT
  if normalize then divT3 G (lastDim xf) else G

/-- `def gram_loss(input, target)`: mse between the (normalized) Gram
matrices. -/
def gram_loss (input target : T4) : ℚ :=
  mseVec (flat3 (channelwise_gram_matrix input true))
    (flat3 (channelwise_gram_matrix target true))

/-- `class ContentLoss(MultiLayerLoss)` with fresh (empty) target state. -/
def ContentLoss (score_weight : ℚ) : MultiLayerLoss T4 :=
  ⟨score_weight, [], feature_reconstruction_loss⟩

/-- `class StyleLoss(MultiLayerLoss)` with fresh (empty) target state. -/
def StyleLoss (score_weight : ℚ) : MultiLayerLoss T4 :=
  ⟨score_weight, [], gram_loss⟩

/-! ### Gram matrix lemmas (C10) -/

theorem dot_comm : ∀ u v : T1, dot u v = dot v u := by
  intro u
  induction u with
  | nil => intro v; cases v <;> rfl
  | cons a u ih =>
    intro v
    cases v with
    | nil => rfl
    | cons b v =>
      simp only [dot, List.zip_cons_cons, List.map_cons, List.sum_cons] at *
      rw [mul_comm, ih v]

theorem matmulT_entry (m : T2) (i j : Nat) :
    ((matmulT m)[i]?.bind fun row => row[j]?) =
      m[i]?.bind (fun r => m[j]?.map (fun s => dot r s)) := by
  simp only [matmulT, List.getElem?_map]
  cases m[i]? with
  | none => rfl
  | some r =>
    simp only [Option.map_some', Option.some_bind, List.getElem?_map]

theorem matmulT_symm (m : T2) (i j : Nat) :
    ((matmulT m)[i]?.bind fun row => row[j]?) =
      ((matmulT m)[j]?.bind fun row => row[i]?) := by
  rw [matmulT_entry, matmulT_entry]
  cases hi : m[i]? with
  | none =>
    cases hj : m[j]? with
    | none => rfl
    | some s => simp
  | some r =>
    cases hj : m[j]? with
    | none => simp
    | some s => simp [dot_comm r s]

theorem divMat_entry (M : T2) (n : ℚ) (i j : Nat) :
    ((M.map (fun row => row.map (fun q => q / n)))[i]?.bind fun row => row[j]?) =
      (M[i]?.bind fun row => row[j]?).map (fun q => q / n) := by
  simp only [List.getElem?_map]
  cases M[i]? with
  | none => rfl
  | some row => simp [List.getElem?_map]

/-- C10: normalization divides the raw Gram matrices elementwise by the number
of flattened spatial positions (`x.size()[-1]` after `torch.flatten(x, 2)`),
and with or without normalization every per-batch Gram matrix is symmetric:
entry `(i, j)` equals entry `(j, i)` for all index pairs. -/
theorem gram_normalize_and_symmetric (x : T4)
    (_hpos : 0 < lastDim (flatten2 x)) :
    channelwise_gram_matrix x true =
      divT3 (channelwise_gram_matrix x false) ((lastDim (flatten2 x) : ℚ))
    ∧ ∀ (normalize : Bool), ∀ G ∈ channelwise_gram_matrix x normalize,
        ∀ i j : Nat, (G[i]?.bind fun row => row[j]?) =
          (G[j]?.bind fun row => row[i]?) := by
  constructor
  · simp [channelwise_gram_matrix, divT3]
  · intro normalize G hG i j
    cases normalize with
    | false =>
      simp only [channelwise_gram_matrix, Bool.false_eq_true, if_false] at hG
      obtain ⟨m, -, rfl⟩ := List.mem_map.mp hG
      exact matmulT_symm m i j
    | true =>
      simp only [channelwise_gram_matrix, if_pos rfl, divT3, List.map_map] at hG
      obtain ⟨m, -, rfl⟩ := List.mem_map.mp hG
      simp only [Function.comp_def]
      rw [divMat_entry, divMat_entry, matmulT_symm m i j]

/-- Witness for C10 on a 1x2x1x2 tensor. -/
theorem gram_normalize_and_symmetric_witness :
    channelwise_gram_matrix [[[[1, 2]], [[3, 4]]]] true =
      divT3 (channelwise_gram_matrix [[[[1, 2]], [[3, 4]]]] false) 2
    ∧ (channelwise_gram_matrix [[[[1, 2]], [[3, 4]]]] true =
        [[[5/2, 11/2], [11/2, 25/2]]]) := by
  have h := gram_normalize_and_symmetric [[[[1, 2]], [[3, 4]]]] (by decide)
  constructor
  · exact h.1
  · simp [channelwise_gram_matrix, flatten2, matmulT, dot, divT3, lastDim]
    norm_num

/-! ## The optimization closure (beginner notebook, cell 30)

```python
def closure():
    optimizer.zero_grad()
    input_encs = multi_layer_encoder(input_image, content_layers, style_layers)
    input_content_encs, input_style_encs = input_encs
    content_score = content_loss(input_content_encs)
    style_score = style_loss(input_style_encs)
    perceptual_loss = content_score + style_score
    perceptual_loss.backward()
    return perceptual_loss
```

`zero_grad` / `backward` concern the external autograd engine; the value
computation is embedded. -/

inductive ClosureError where
  | encErr (err : MLEError)
  | lossErr (err : LossError)
  | unpackErr
deriving DecidableEq

def closure (mle : MultiLayerEncoder α) (content_loss style_loss : MultiLayerLoss α)
    (content_layers style_layers : List String) (input_image : α) :
    Except ClosureError ℚ :=
  match mle.forward input_image [content_layers, style_layers] with
  | .error err => .error (.encErr err)
  | .ok input_encs =>
    match input_encs with
    | [input_content_encs, input_style_encs] =>
      match (content_loss.forward input_content_encs).1 with
      | .error err => .error (.lossErr err)
      | .ok content_score =>
        match (style_loss.forward input_style_encs).1 with
        | .error err => .error (.lossErr err)
        | .ok style_score => .ok (content_score + style_score)
    | _ => .error .unpackErr

/-- Concrete tensor-valued encoder for witnesses and the C5 counterexample:
`"conv1"` reverses the channel order, `"relu1"` reverses the batch order. -/
def t4Enc : MultiLayerEncoder T4 :=
  ⟨[("conv1", fun x => x.map (fun b => b.reverse)), ("relu1", fun x => x.reverse)]⟩

/-- A concrete 1-batch, 2-channel, 1x2 image. -/
def exImage : T4 := [[[[1, 2]], [[3, 4]]]]

/-- C8: with both losses configured for their layer collections (targets of
matching count stored), the value the closure returns — the value handed to the
optimizer — is exactly the content loss score on the image's encodings plus the
style loss score on the image's encodings. -/
theorem closure_sums_content_and_style (mle : MultiLayerEncoder α)
    (content_loss style_loss : MultiLayerLoss α)
    (content_layers style_layers : List String) (input_image : α)
    (hall : ∀ l ∈ content_layers ++ style_layers, l ∈ mle.children_names)
    (hcne : content_layers ≠ []) (hsne : style_layers ≠ [])
    (hct : content_loss.target_encs.length = content_layers.length)
    (hst : style_loss.target_encs.length = style_layers.length) :
    ∃ c s,
      (content_loss.forward (content_layers.map
        (fun l => refAct mle.layers input_image l))).1 = .ok c ∧
      (style_loss.forward (style_layers.map
        (fun l => refAct mle.layers input_image l))).1 = .ok s ∧
      closure mle content_loss style_loss content_layers style_layers input_image
        = .ok (c + s) := by
  have hall' : ∀ l ∈ ([content_layers, style_layers] : List (List String)).join,
      l ∈ mle.children_names := by
    intro l hl
    apply hall
    simpa using hl
  have hne' : ([content_layers, style_layers] : List (List String)).join ≠ [] := by
    simp only [List.join]
    intro h
    exact hcne (List.append_eq_nil.mp h).1
  have hfwd := forward_eq_refAct mle input_image [content_layers, style_layers]
    hall' hne'
  simp only [List.map_cons, List.map_nil] at hfwd
  have hcok := mll_forward_ok content_loss
    (content_layers.map (fun l => refAct mle.layers input_image l))
    (by rw [List.length_map, hct]) (by simpa using hcne)
  have hsok := mll_forward_ok style_loss
    (style_layers.map (fun l => refAct mle.layers input_image l))
    (by rw [List.length_map, hst]) (by simpa using hsne)
  refine ⟨_, _, hcok, hsok, ?_⟩
  simp only [closure, hfwd, hcok, hsok]

/-- Witness for C8 at a concrete encoder (identity-style modules built from
list reversal, so that everything evaluates) and difference scores. -/
theorem closure_sums_content_and_style_witness :
    ∃ c s,
      ((⟨1, [[[[[3, 4]], [[1, 2]]]]], fun a b => if a = b then 0 else 1⟩ :
          MultiLayerLoss T4).forward
        (["conv1"].map (fun l => refAct t4Enc.layers exImage l))).1 = .ok c ∧
      ((⟨2, [[[[[3, 4]], [[1, 2]]]]], fun a b => if a = b then 0 else 1⟩ :
          MultiLayerLoss T4).forward
        (["relu1"].map (fun l => refAct t4Enc.layers exImage l))).1 = .ok s ∧
      closure t4Enc
        (⟨1, [[[[[3, 4]], [[1, 2]]]]], fun a b => if a = b then 0 else 1⟩ :
          MultiLayerLoss T4)
        (⟨2, [[[[[3, 4]], [[1, 2]]]]], fun a b => if a = b then 0 else 1⟩ :
          MultiLayerLoss T4)
        ["conv1"] ["relu1"] exImage = .ok (c + s) := by
  exact closure_sums_content_and_style t4Enc _ _ ["conv1"] ["relu1"] exImage
    (by decide) (by decide) (by decide) (by decide) (by decide)

/-! ### Scoring the target image itself (C5) -/

theorem map_zip_self {β : Type} (f : α → α → β) :
    ∀ l : List α, (l.zip l).map (fun p => f p.1 p.2) = l.map (fun a => f a a) := by
  intro l
  induction l with
  | nil => rfl
  | cons a l ih => simp only [List.zip_cons_cons, List.map_cons, ih]

theorem mseVec_self (u : T1) : mseVec u u = 0 := by
  have h : sqDiffSum u u = 0 := by
    simp only [sqDiffSum]
    rw [map_zip_self (fun a b => (a - b) ^ 2) u]
    simp
  simp [mseVec, h]

theorem feature_reconstruction_loss_self (a : T4) :
    feature_reconstruction_loss a a = 0 := by
  simp [feature_reconstruction_loss, mseVec_self]

theorem gram_loss_self (a : T4) : gram_loss a a = 0 := by
  simp [gram_loss, mseVec_self]

/-- Scoring a `MultiLayerLoss` on exactly its stored targets yields zero when
the comparison of a tensor with itself is zero. -/
theorem mll_forward_self_zero (s : MultiLayerLoss α)
    (hne : s.target_encs ≠ []) (hself : ∀ a, s.calculate_score a a = 0) :
    (s.forward s.target_encs).1 = .ok 0 := by
  have hok := mll_forward_ok s s.target_encs rfl hne
  rw [hok]
  rw [map_zip_self (fun a b => s.calculate_score a b) s.target_encs]
  have hz : s.target_encs.map (fun a => s.calculate_score a a) =
      s.target_encs.map (fun _ => (0 : ℚ)) := by
    apply List.map_congr_left
    intro a _
    exact hself a
  rw [hz]
  simp [List.map_const', List.sum_replicate]

/-- The closure with both losses targeting the encodings of `image`, evaluated
on `image` itself, returns exactly zero. -/
theorem closure_self_aux (mle : MultiLayerEncoder α) (image : α)
    (content_layers style_layers : List String) (cl sl : MultiLayerLoss α)
    (hall : ∀ l ∈ content_layers ++ style_layers, l ∈ mle.children_names)
    (hcne : content_layers ≠ []) (hsne : style_layers ≠ [])
    (hct : cl.target_encs =
      content_layers.map (fun l => refAct mle.layers image l))
    (hst : sl.target_encs =
      style_layers.map (fun l => refAct mle.layers image l))
    (hcself : ∀ a, cl.calculate_score a a = 0)
    (hsself : ∀ a, sl.calculate_score a a = 0) :
    closure mle cl sl content_layers style_layers image = .ok 0 := by
  have hall' : ∀ l ∈ ([content_layers, style_layers] : List (List String)).join,
      l ∈ mle.children_names := by
    intro l hl
    apply hall
    simpa using hl
  have hne' : ([content_layers, style_layers] : List (List String)).join ≠ [] := by
    simp only [List.join]
    intro h
    exact hcne (List.append_eq_nil.mp h).1
  have hfwd := forward_eq_refAct mle image [content_layers, style_layers]
    hall' hne'
  simp only [List.map_cons, List.map_nil] at hfwd
  have hcz : (cl.forward (content_layers.map
      (fun l => refAct mle.layers image l))).1 = .ok 0 := by
    rw [← hct]
    exact mll_forward_self_zero cl
      (by rw [hct]; simpa using hcne) hcself
  have hsz : (sl.forward (style_layers.map
      (fun l => refAct mle.layers image l))).1 = .ok 0 := by
    rw [← hst]
    exact mll_forward_self_zero sl
      (by rw [hst]; simpa using hsne) hsself
  simp only [closure, hfwd, hcz, hsz, add_zero]

/-! ### Nonnegativity of the perceptual scores (C5) -/

theorem sqDiffSum_nonneg (u v : T1) : 0 ≤ sqDiffSum u v := by
  apply List.sum_nonneg
  intro q hq
  obtain ⟨p, -, rfl⟩ := List.mem_map.mp hq
  positivity

theorem mseVec_nonneg (u v : T1) : 0 ≤ mseVec u v := by
  apply div_nonneg (sqDiffSum_nonneg u v)
  exact_mod_cast Nat.zero_le _

theorem feature_reconstruction_loss_nonneg (a b : T4) :
    0 ≤ feature_reconstruction_loss a b := mseVec_nonneg _ _

theorem gram_loss_nonneg (a b : T4) : 0 ≤ gram_loss a b := mseVec_nonneg _ _

theorem mll_forward_ok_nonneg (s : MultiLayerLoss α) (input_encs : List α)
    (q : ℚ) (hw : 0 ≤ s.score_weight)
    (hcalc : ∀ a b, 0 ≤ s.calculate_score a b)
    (hok : (s.forward input_encs).1 = .ok q) : 0 ≤ q := by
  by_cases hlen : input_encs.length ≠ s.target_encs.length
  · simp [MultiLayerLoss.forward, hlen] at hok
  · simp only [MultiLayerLoss.forward, if_neg hlen] at hok
    cases hm : mean ((input_encs.zip s.target_encs).map
        (fun p => s.calculate_score p.1 p.2)) with
    | error err =>
      rw [hm] at hok
      simp at hok
    | ok m =>
      rw [hm] at hok
      have hq : m * s.score_weight = q := by simpa using hok
      have hm0 : 0 ≤ m := by
        simp only [mean] at hm
        split at hm
        · simp at hm
        · have hmval := Except.ok.inj hm
          rw [← hmval]
          apply div_nonneg
          · apply List.sum_nonneg
            intro x hx
            obtain ⟨p, -, rfl⟩ := List.mem_map.mp hx
            exact hcalc p.1 p.2
          · exact_mod_cast Nat.zero_le _
      rw [← hq]
      exact mul_nonneg hm0 hw

theorem closure_ok_inversion (mle : MultiLayerEncoder α)
    (cl sl : MultiLayerLoss α) (content_layers style_layers : List String)
    (image : α) (q : ℚ)
    (h : closure mle cl sl content_layers style_layers image = .ok q) :
    ∃ ce se c s, mle.forward image [content_layers, style_layers] = .ok [ce, se]
      ∧ (cl.forward ce).1 = .ok c ∧ (sl.forward se).1 = .ok s ∧ q = c + s := by
  simp only [closure] at h
  cases hf : mle.forward image [content_layers, style_layers] with
  | error err =>
    rw [hf] at h
    simp at h
  | ok encs =>
    rw [hf] at h
    rcases encs with - | ⟨ce, - | ⟨se, - | ⟨x, rest⟩⟩⟩
    · simp at h
    · simp at h
    · simp only [] at h
      cases hc : (cl.forward ce).1 with
      | error err =>
        rw [hc] at h
        simp at h
      | ok c =>
        rw [hc] at h
        simp only [] at h
        cases hs : (sl.forward se).1 with
        | error err =>
          rw [hs] at h
          simp at h
        | ok s =>
          rw [hs] at h
          have hcs : c + s = q := by simpa using h
          exact ⟨ce, se, c, s, rfl, hc, hs, hcs.symm⟩
    · simp at h

/-- C5 counterexample: scoring the very image whose encodings are stored as
both the content and the style targets yields exactly zero — not a nonzero
near-minimal value — at this concrete encoder and image. -/
theorem closure_self_score_counterexample :
    closure t4Enc
      ((ContentLoss 1).set_target_encs
        (["conv1"].map (fun l => refAct t4Enc.layers exImage l)))
      ((StyleLoss 1000).set_target_encs
        (["relu1"].map (fun l => refAct t4Enc.layers exImage l)))
      ["conv1"] ["relu1"] exImage = .ok 0 := by
  apply closure_self_aux
  · decide
  · decide
  · decide
  · rfl
  · rfl
  · exact feature_reconstruction_loss_self
  · exact gram_loss_self

/-- C5 (amended): scoring the image whose encodings are stored as both targets
yields *exactly* zero, and zero is the global minimum: every score the closure
can return under nonnegative score weights is nonnegative.  (The Gram-matrix
normalization divides both compared Gram matrices identically, so it does not
perturb the self-score away from zero.) -/
theorem closure_self_score_exact_zero_min (mle : MultiLayerEncoder T4)
    (image : T4) (content_layers style_layers : List String) (wc ws : ℚ)
    (hall : ∀ l ∈ content_layers ++ style_layers, l ∈ mle.children_names)
    (hcne : content_layers ≠ []) (hsne : style_layers ≠ []) :
    closure mle
      ((ContentLoss wc).set_target_encs
        (content_layers.map (fun l => refAct mle.layers image l)))
      ((StyleLoss ws).set_target_encs
        (style_layers.map (fun l => refAct mle.layers image l)))
      content_layers style_layers image = .ok 0
    ∧ (0 ≤ wc → 0 ≤ ws → ∀ (cts sts : List T4) (img2 : T4) (q : ℚ),
        closure mle ((ContentLoss wc).set_target_encs cts)
          ((StyleLoss ws).set_target_encs sts)
          content_layers style_layers img2 = .ok q → 0 ≤ q) := by
  constructor
  · apply closure_self_aux mle image content_layers style_layers _ _ hall
      hcne hsne rfl rfl
    · exact feature_reconstruction_loss_self
    · exact gram_loss_self
  · intro hwc hws cts sts img2 q hq
    obtain ⟨ce, se, c, s, -, hc, hs, rfl⟩ :=
      closure_ok_inversion mle _ _ content_layers style_layers img2 q hq
    have h1 : 0 ≤ c := mll_forward_ok_nonneg _ ce c hwc
      (fun a b => feature_reconstruction_loss_nonneg a b) hc
    have h2 : 0 ≤ s := mll_forward_ok_nonneg _ se s hws
      (fun a b => gram_loss_nonneg a b) hs
    exact add_nonneg h1 h2

/-- Witness for C5 (amended) at the concrete encoder and image: the self-score
is exactly zero and any returned score is nonnegative. -/
theorem closure_self_score_exact_zero_min_witness :
    closure t4Enc
      ((ContentLoss 2).set_target_encs
        (["conv1"].map (fun l => refAct t4Enc.layers exImage l)))
      ((StyleLoss 3).set_target_encs
        (["relu1"].map (fun l => refAct t4Enc.layers exImage l)))
      ["conv1"] ["relu1"] exImage = .ok 0
    ∧ ∀ (cts sts : List T4) (img2 : T4) (q : ℚ),
        closure t4Enc ((ContentLoss 2).set_target_encs cts)
          ((StyleLoss 3).set_target_encs sts)
          ["conv1"] ["relu1"] img2 = .ok q → 0 ≤ q := by
  have h := closure_self_score_exact_zero_min t4Enc exImage ["conv1"] ["relu1"]
    2 3 (by decide) (by decide) (by decide)
  exact ⟨h.1, h.2 (by norm_num) (by norm_num)⟩

/-! ## Image pyramid (C2)

`pystiche.pyramid.ImagePyramid` and `optim.pyramid_image_optimization` are not
part of the sources; the pyramid notebook only constructs and calls them.
They are modelled from the specification. -/

/-- Modelled from the spec: a pyramid level is "an ordered record of (edge
size, step count, edge-selection policy)"; the edge-selection policy does not
affect the ordering/step-count claims and is omitted. -/
structure PyramidLevel where
  edge_size : Nat
  num_steps : Nat
deriving DecidableEq

/-- Modelled from the spec: `ImagePyramid(edge_sizes, num_steps, ...)` builds
one level per edge size; a single `num_steps` applies to every level.  "The
sequence is immutable once constructed." -/
structure ImagePyramid where
  levels : List PyramidLevel
deriving DecidableEq

def ImagePyramid.ofUniform (edge_sizes : List Nat) (num_steps : Nat) :
    ImagePyramid :=
  ⟨edge_sizes.map (fun e => ⟨e, num_steps⟩)⟩

/-- An observable event of a pyramid run: entering a level (resizing the
working image and resize targets to its edge size) or delegating one
optimization step to the driver at that edge size. -/
inductive PyrEvent where
  | enterLevel (edge_size : Nat)
  | optStep (edge_size : Nat)
deriving DecidableEq

/-- The events of one level: enter it, then delegate exactly `num_steps`
iterations to the optimization driver before advancing. -/
def levelBlock (lvl : PyramidLevel) : List PyrEvent :=
  PyrEvent.enterLevel lvl.edge_size ::
    List.replicate lvl.num_steps (PyrEvent.optStep lvl.edge_size)

/-- Modelled from the spec: `optim.pyramid_image_optimization` processes the
levels in their configured order, for each level resizing to its edge size and
then delegating exactly its number of steps to the driver, as an event
trace. -/
def pyramid_image_optimization (pyr : ImagePyramid) : List PyrEvent :=
  (pyr.levels.map levelBlock).join

/-- The edge sizes of the levels in the order they are entered. -/
def entersOf (tr : List PyrEvent) : List Nat :=
  tr.filterMap (fun ev =>
    match ev with
    | .enterLevel e => some e
    | .optStep _ => none)

/-- The number of optimization steps delegated at edge size `e`. -/
def stepsAt (e : Nat) (tr : List PyrEvent) : Nat :=
  tr.countP (fun ev => ev == PyrEvent.optStep e)

/-- The total number of optimization steps in the trace. -/
def totalSteps (tr : List PyrEvent) : Nat :=
  tr.countP (fun ev =>
    match ev with
    | .optStep _ => true
    | .enterLevel _ => false)

theorem entersOf_append (a b : List PyrEvent) :
    entersOf (a ++ b) = entersOf a ++ entersOf b := by
  simp [entersOf, List.filterMap_append]

theorem entersOf_replicate (n e : Nat) :
    entersOf (List.replicate n (PyrEvent.optStep e)) = [] := by
  induction n with
  | zero => rfl
  | succ n ih =>
    rw [List.replicate_succ]
    simp only [entersOf, List.filterMap_cons] at *
    exact ih

theorem entersOf_levelBlock (lvl : PyramidLevel) :
    entersOf (levelBlock lvl) = [lvl.edge_size] := by
  simp only [levelBlock, entersOf, List.filterMap_cons]
  have h := entersOf_replicate lvl.num_steps lvl.edge_size
  simp only [entersOf] at h
  rw [h]

theorem entersOf_trace (levels : List PyramidLevel) :
    entersOf ((levels.map levelBlock).join) =
      levels.map PyramidLevel.edge_size := by
  induction levels with
  | nil => rfl
  | cons lvl rest ih =>
    have hstep : ((lvl :: rest).map levelBlock).join =
        levelBlock lvl ++ (rest.map levelBlock).join := rfl
    rw [hstep, entersOf_append, entersOf_levelBlock, ih, List.map_cons]
    rfl

theorem stepsAt_append (e : Nat) (a b : List PyrEvent) :
    stepsAt e (a ++ b) = stepsAt e a + stepsAt e b := by
  simp [stepsAt, List.countP_append]

theorem countP_replicate {β : Type} (p : β → Bool) (n : Nat) (x : β) :
    (List.replicate n x).countP p = if p x then n else 0 := by
  induction n with
  | zero => simp [List.countP_nil]
  | succ n ih =>
    simp only [List.replicate, List.countP_cons, ih]
    by_cases h : p x
    · simp [h]
    · simp [h]

theorem stepsAt_levelBlock (e : Nat) (lvl : PyramidLevel) :
    stepsAt e (levelBlock lvl) =
      if e = lvl.edge_size then lvl.num_steps else 0 := by
  simp only [levelBlock, stepsAt, List.countP_cons]
  rw [countP_replicate]
  have henter : (PyrEvent.enterLevel lvl.edge_size == PyrEvent.optStep e) = false := by
    simp
  rw [henter]
  by_cases h : e = lvl.edge_size
  · simp [h]
  · have hne : (PyrEvent.optStep lvl.edge_size == PyrEvent.optStep e) = false := by
      simp [beq_eq_false_iff_ne]
      exact fun hc => h hc.symm
    simp [hne, h]

theorem stepsAt_trace_zero (e : Nat) (levels : List PyramidLevel)
    (hne : ∀ lvl ∈ levels, lvl.edge_size ≠ e) :
    stepsAt e ((levels.map levelBlock).join) = 0 := by
  induction levels with
  | nil => rfl
  | cons lvl rest ih =>
    have hstep : ((lvl :: rest).map levelBlock).join =
        levelBlock lvl ++ (rest.map levelBlock).join := rfl
    rw [hstep, stepsAt_append, stepsAt_levelBlock,
      if_neg (fun h => hne lvl (List.mem_cons_self _ _) h.symm),
      ih (fun l hl => hne l (List.mem_cons_of_mem _ hl))]

theorem stepsAt_trace (levels : List PyramidLevel)
    (hpair : (levels.map PyramidLevel.edge_size).Pairwise (· < ·)) :
    ∀ lvl ∈ levels,
      stepsAt lvl.edge_size ((levels.map levelBlock).join) = lvl.num_steps := by
  induction levels with
  | nil => intro lvl hl; simp at hl
  | cons l0 rest ih =>
    intro lvl hl
    simp only [List.map_cons, List.pairwise_cons] at hpair
    obtain ⟨hlt, hrest⟩ := hpair
    have hstep : ((l0 :: rest).map levelBlock).join =
        levelBlock l0 ++ (rest.map levelBlock).join := rfl
    rcases List.mem_cons.mp hl with rfl | hl'
    · rw [hstep, stepsAt_append, stepsAt_levelBlock, if_pos rfl,
        stepsAt_trace_zero lvl.edge_size rest (fun l hlmem => by
          have := hlt l.edge_size (List.mem_map.mpr ⟨l, hlmem, rfl⟩)
          omega)]
      omega
    · have hne0 : lvl.edge_size ≠ l0.edge_size := by
        have := hlt lvl.edge_size (List.mem_map.mpr ⟨lvl, hl', rfl⟩)
        omega
      rw [hstep, stepsAt_append, stepsAt_levelBlock, if_neg hne0,
        ih hrest lvl hl']
      omega

set_option maxRecDepth 8000 in
/-- C2: the pyramid run with `edge_sizes = (250, 500)` and `num_steps = 200`
enters edge 250, delegates exactly 200 steps there, then enters edge 500 and
delegates exactly 200 steps there — 400 steps in total (first conjunct); and
for every level sequence satisfying the spec invariant of strictly ascending
edge sizes, the levels are entered in strictly ascending edge-size order — so
no level is entered at a lower resolution after a higher one — with exactly
the configured number of steps delegated per level (second conjunct). -/
theorem pyramid_ascending_exact_steps :
    (entersOf (pyramid_image_optimization (ImagePyramid.ofUniform [250, 500] 200))
        = [250, 500]
      ∧ stepsAt 250 (pyramid_image_optimization
          (ImagePyramid.ofUniform [250, 500] 200)) = 200
      ∧ stepsAt 500 (pyramid_image_optimization
          (ImagePyramid.ofUniform [250, 500] 200)) = 200
      ∧ totalSteps (pyramid_image_optimization
          (ImagePyramid.ofUniform [250, 500] 200)) = 400)
    ∧ ∀ (pyr : ImagePyramid),
        (pyr.levels.map PyramidLevel.edge_size).Pairwise (· < ·) →
        entersOf (pyramid_image_optimization pyr) =
          pyr.levels.map PyramidLevel.edge_size
        ∧ (entersOf (pyramid_image_optimization pyr)).Pairwise (· < ·)
        ∧ ∀ lvl ∈ pyr.levels,
            stepsAt lvl.edge_size (pyramid_image_optimization pyr) =
              lvl.num_steps := by
  constructor
  · refine ⟨?_, ?_, ?_, ?_⟩
    · exact entersOf_trace _
    · exact stepsAt_trace _ (by decide) ⟨250, 200⟩ (by decide)
    · exact stepsAt_trace _ (by decide) ⟨500, 200⟩ (by decide)
    · decide
  · intro pyr hpair
    refine ⟨entersOf_trace _, ?_, stepsAt_trace _ hpair⟩
    rw [pyramid_image_optimization, entersOf_trace]
    exact hpair

/-- Witness for C2 at a further concrete ascending pyramid. -/
theorem pyramid_ascending_exact_steps_witness :
    entersOf (pyramid_image_optimization ⟨[⟨100, 3⟩, ⟨200, 4⟩]⟩) = [100, 200]
    ∧ (entersOf (pyramid_image_optimization ⟨[⟨100, 3⟩, ⟨200, 4⟩]⟩)).Pairwise
        (· < ·)
    ∧ stepsAt 100 (pyramid_image_optimization ⟨[⟨100, 3⟩, ⟨200, 4⟩]⟩) = 3
    ∧ stepsAt 200 (pyramid_image_optimization ⟨[⟨100, 3⟩, ⟨200, 4⟩]⟩) = 4 := by
  have h := pyramid_ascending_exact_steps.2 ⟨[⟨100, 3⟩, ⟨200, 4⟩]⟩ (by decide)
  exact ⟨h.1, h.2.1, h.2.2 ⟨100, 3⟩ (by decide), h.2.2 ⟨200, 4⟩ (by decide)⟩

end Pystiche
